import Mathlib

/-!
Shallow embedding of the knexer migration controller
(`src/lib/connection.js`, the `MigrationController` class).

The migration engine `_doMigration(moduleName, toUpgrade, version)` reads the
stored version of a module, resolves a target version, checks guard rails,
runs the selected migration units forward or backward, and persists the new
version.  The external collaborators (the loader `_getMigrations` and the
version-store read `getVersion`) are passed in as inputs; the observable
behaviour of one invocation is the ordered list of unit actions invoked, the
version-table writes, and the reported outcome.

JavaScript value semantics that matter are modelled explicitly: the stored
version read can be a number, `null` (no record) or `undefined` (the catch
branch of `getVersion`); the resolved in-flight `version` can be a number or
`NaN` (from `undefined + 1`); comparisons involving `NaN`/`undefined` are
false, `null` coerces to 0 in `<`/`>`, and `Array.prototype.slice` coerces
`NaN`/`null` bounds to 0 and an `undefined` end bound to the array length.
-/

namespace Knexer

/-- One migration unit of a module: the two flags record whether its forward
(`up`) and backward (`down`) actions succeed when invoked. -/
structure Migration where
  upOk : Bool
  downOk : Bool
  deriving Repr, DecidableEq

/-- Value of the in-flight `version` variable of `_doMigration` after target
resolution: a JavaScript number that is an integer or `NaN`. -/
inductive JSVer where
  | num (v : Int)
  | nan
  deriving Repr, DecidableEq

/-- Result of reading the stored version (`getVersion`): a number, `null`
(no record for the module), or `undefined` (the read failed and the catch
block returned nothing). -/
inductive CurVer where
  | num (v : Int)
  | null
  | undefined
  deriving Repr, DecidableEq

/-- The `version` argument of `migrate` / `rollback`: omitted, the string
`latest`, or an explicit integer. -/
inductive VersionArg where
  | noArg
  | latest
  | num (v : Int)
  deriving Repr, DecidableEq

/-- Errors thrown as `MigrationError` by `_doMigration` (they escape the
function, i.e. the returned promise rejects). -/
inductive MigErr where
  /-- Please provide the module to migrate. -/
  | provideModule
  /-- Please provide a valid migration version. -/
  | provideValidVersion
  /-- Cannot rollback the module to latest. -/
  | cannotRollbackToLatest
  /-- Cannot migrate to a previous version. Please rollback instead. -/
  | migrateToPrevious
  /-- Cannot rollback to a later version. Please migrate instead. -/
  | rollbackToLater
  deriving Repr, DecidableEq

/-- JavaScript comparison `version < currentVersion`: `null` coerces to 0,
any comparison involving `NaN` or `undefined` is false. -/
def jsLt : JSVer → CurVer → Bool
  | .num a, .num b => decide (a < b)
  | .num a, .null => decide (a < 0)
  | _, _ => false

/-- JavaScript comparison `version > currentVersion`. -/
def jsGt : JSVer → CurVer → Bool
  | .num a, .num b => decide (b < a)
  | .num a, .null => decide (0 < a)
  | _, _ => false

/-- JavaScript comparison `version > latestVersion` where `latestVersion` is
the array length. -/
def jsGtLen : JSVer → Nat → Bool
  | .num a, n => decide ((n : Int) < a)
  | .nan, _ => false

/-- JavaScript strict equality `currentVersion === n` for an integer `n`. -/
def curEq : CurVer → Int → Bool
  | .num b, n => decide (b = n)
  | _, _ => false

/-- JavaScript strict equality `version === currentVersion`
(`NaN === x` is false, `null`/`undefined` never equal a number). -/
def verEqCur : JSVer → CurVer → Bool
  | .num a, .num b => decide (a = b)
  | _, _ => false

/-- JavaScript `currentVersion || 0`. -/
def curOrZero : CurVer → Int
  | .num v => v
  | _ => 0

/-- Clamp an integer slice bound into `[0, len]` the way
`Array.prototype.slice` does: negative values count from the end. -/
def jsClamp (len : Nat) (v : Int) : Nat :=
  if v < 0 then ((len : Int) + v).toNat else min v.toNat len

/-- Slice start bound coming from `currentVersion`: `null` and `undefined`
coerce to 0. -/
def sliceStartCur (len : Nat) : CurVer → Nat
  | .num v => jsClamp len v
  | _ => 0

/-- Slice start bound coming from the resolved `version`: `NaN` coerces
to 0. -/
def sliceStartVer (len : Nat) : JSVer → Nat
  | .num v => jsClamp len v
  | .nan => 0

/-- Slice end bound coming from `currentVersion`: an `undefined` end bound
means the array length, `null` coerces to 0. -/
def sliceEndCur (len : Nat) : CurVer → Nat
  | .num v => jsClamp len v
  | .null => 0
  | .undefined => len

/-- Slice end bound coming from the resolved `version`: `NaN` coerces to 0. -/
def sliceEndVer (len : Nat) : JSVer → Nat
  | .num v => jsClamp len v
  | .nan => 0

/-- `Array.prototype.slice` with already-clamped bounds. -/
def jsSlice (l : List α) (s e : Nat) : List α := (l.take e).drop s

/-- Tag each migration with its 0-based position in the discovered array,
modelling the object identity of the array elements (the 1-based unit number
is the position plus one). -/
def tagFrom (n : Nat) : List Migration → List (Nat × Migration)
  | [] => []
  | m :: rest => (n, m) :: tagFrom (n + 1) rest

/-- Whether the selected action of a unit succeeds. -/
def actionOk (m : Migration) (toUpgrade : Bool) : Bool :=
  if toUpgrade then m.upOk else m.downOk

/-- Result of `_runMigration`: true, undefined (the action threw and the
catch logged it), or a TypeError escaping because the argument itself was
`undefined` (out-of-range array access). -/
inductive StepRes where
  | ok
  | failed
  | typeErr
  deriving Repr, DecidableEq

/-- Model of `_runMigration`: invoke `up`/`down` on the unit, return true on
success, undefined when the action throws (logged); invoking a member of
`undefined` raises a TypeError that escapes to the caller.  The trace lists
the action invocations with their results. -/
def _runMigration (m : Option (Nat × Migration)) (toUpgrade : Bool) :
    List (Nat × Bool) × StepRes :=
  match m with
  | Option.none => ([], .typeErr)
  | Option.some (i, u) =>
    if actionOk u toUpgrade then ([(i, true)], .ok) else ([(i, false)], .failed)

/-- Model of `_migrateMany`: run each unit in order, stopping at the first
failure (returning undefined, modelled as false); true when all succeeded. -/
def _migrateMany (ms : List (Nat × Migration)) (toUpgrade : Bool) :
    List (Nat × Bool) × Bool :=
  match ms with
  | [] => ([], true)
  | (i, u) :: rest =>
    if actionOk u toUpgrade then
      ((i, true) :: (_migrateMany rest toUpgrade).1, (_migrateMany rest toUpgrade).2)
    else ([(i, false)], false)

/-- One row written to the `migrations` table by `_updateMigrationVersion`. -/
structure WriteOp where
  version : JSVer
  insert : Bool
  deriving Repr, DecidableEq

/-- Model of `_updateMigrationVersion`: a single insert query or a single
update query. -/
def _updateMigrationVersion (version : JSVer) (toInsert : Bool) : List WriteOp :=
  if toInsert then [⟨version, true⟩] else [⟨version, false⟩]

/-- Observable result class of one `_doMigration` invocation. -/
inductive Outcome where
  /-- A MigrationError escaped the call (the promise rejects). -/
  | thrown (e : MigErr)
  /-- `_getMigrations` returned nothing; logged and returned. -/
  | loadFailed
  /-- The bare `return` taken for an absent record with no version argument. -/
  | returnedEarly
  /-- Logged: module already in the latest migration version. -/
  | alreadyLatest
  /-- Logged: module has not yet been migrated. -/
  | notYetMigrated
  /-- Logged: module already in the given migration version. -/
  | alreadyAtVersion
  /-- A unit action failed; `_doMigration` returned without updating. -/
  | stepFailed
  /-- The outer catch logged an escaped error from the execution phase. -/
  | caught
  /-- Success log with the new version. -/
  | migrated (v : JSVer)
  deriving Repr, DecidableEq

/-- Full observable behaviour of one invocation: the unit actions invoked in
order (0-based index with success flag), the version-table writes, and the
outcome. -/
structure MigOut where
  trace : List (Nat × Bool)
  writes : List WriteOp
  outcome : Outcome
  deriving Repr, DecidableEq

/-- Target resolution of `_doMigration` can end in the bare `return` for an
absent record, a thrown `MigrationError`, or a resolved target. -/
inductive Resolution where
  | earlyReturn
  | threw (e : MigErr)
  | target (v : JSVer)
  deriving Repr, DecidableEq

/-- Target resolution (the `version === undefined` / `version === 'latest'`
handling of `_doMigration`): an omitted version becomes current ± 1 (or the
bare `return` / the constant 1 for an absent record — note the source tests
`if(toUpgrade) return` although its comment describes the opposite branch);
`latest` becomes the array length for migrate and throws for rollback.
An `undefined` current version (failed read) makes `currentVersion + 1`
evaluate to `NaN`. -/
def resolveTarget (toUpgrade : Bool) (version : VersionArg) (latest : Nat)
    (currentVersion : CurVer) : Resolution :=
  match version with
  | .noArg =>
    match currentVersion with
    | .null => if toUpgrade then .earlyReturn else .target (.num 1)
    | .num c => .target (.num (c + (if toUpgrade then 1 else -1)))
    | .undefined => .target .nan
  | .latest =>
    if toUpgrade then .target (.num latest) else .threw .cannotRollbackToLatest
  | .num v => .target (.num v)

/-- Guard rails of `_doMigration` after resolution, in source order: wrong
direction (thrown), already at latest, not yet migrated, already at the
given version.  `none` means execution proceeds. -/
def guardOutcome (toUpgrade : Bool) (ver : JSVer) (currentVersion : CurVer)
    (latest : Nat) : Option Outcome :=
  if toUpgrade && jsLt ver currentVersion then some (.thrown .migrateToPrevious)
  else if !toUpgrade && jsGt ver currentVersion then some (.thrown .rollbackToLater)
  else if jsGtLen ver latest || (toUpgrade && curEq currentVersion latest) then
    some .alreadyLatest
  else if !toUpgrade && curEq currentVersion 0 then some .notYetMigrated
  else if verEqCur ver currentVersion then some .alreadyAtVersion
  else none

/-- The source's shortcut test `Math.abs(version - (currentVersion || 0)) <= 1`:
true when the distance between the resolved target and the current version
(`null`/`undefined` coercing to 0) is at most one; false for `NaN`. -/
def singleStep (ver : JSVer) (currentVersion : CurVer) : Bool :=
  match ver with
  | .num v => decide ((v - curOrZero currentVersion).natAbs ≤ 1)
  | .nan => false

/-- Shared tail of the single-unit execution path: a true result updates the
version and logs success; an undefined result (the unit action failed and was
logged) returns silently with no write; an escaped TypeError is caught and
logged by the outer catch, also with no write. -/
def finishSingle (res : List (Nat × Bool) × StepRes) (ver : JSVer)
    (toInsert : Bool) : MigOut :=
  match res with
  | (t, .ok) => ⟨t, _updateMigrationVersion ver toInsert, .migrated ver⟩
  | (t, .failed) => ⟨t, [], .stepFailed⟩
  | (t, .typeErr) => ⟨t, [], .caught⟩

/-- Shared tail of the slice-and-iterate execution path: a true result updates
the version and logs success; an undefined result returns silently with no
write. -/
def finishMany (res : List (Nat × Bool) × Bool) (ver : JSVer)
    (toInsert : Bool) : MigOut :=
  match res with
  | (t, true) => ⟨t, _updateMigrationVersion ver toInsert, .migrated ver⟩
  | (t, false) => ⟨t, [], .stepFailed⟩

/-- Execution phase of `_doMigration` (the try block).  `useShortcut = true`
follows the source: when `Math.abs(version - (currentVersion || 0)) <= 1`
a single array element is run directly, otherwise the array is sliced and
iterated.  `useShortcut = false` always takes the slice-and-iterate path;
it is the general ranged-execution algorithm the specification describes and
is only used to compare the two paths. -/
def runFrom (useShortcut toUpgrade : Bool) (migrations : List Migration)
    (currentVersion : CurVer) (ver : JSVer) : MigOut :=
  let latest := migrations.length
  let tagged := tagFrom 0 migrations
  let toInsert := decide (currentVersion = CurVer.null)
  if useShortcut && singleStep ver currentVersion then
    match ver with
    | .nan => ⟨[], [], .caught⟩
    | .num v =>
      let idx : Int := if toUpgrade then v - 1 else v
      let m := if 0 ≤ idx then tagged[idx.toNat]? else Option.none
      finishSingle (_runMigration m toUpgrade) ver toInsert
  else
    let ms :=
      if toUpgrade then
        jsSlice tagged (sliceStartCur latest currentVersion) (sliceEndVer latest ver)
      else
        (jsSlice tagged (sliceStartVer latest ver) (sliceEndCur latest currentVersion)).reverse
    finishMany (_migrateMany ms toUpgrade) ver toInsert

/-- Whether the version argument fails the validation check
`version !== 'latest' && (version !== undefined && isNaN(version)) || version < 0`:
for integer arguments only an explicit negative number fails. -/
def invalidArg : VersionArg → Bool
  | .num v => decide (v < 0)
  | _ => false

/-- Model of `_doMigration(moduleName, toUpgrade, version)`, with the results
of the external collaborators as inputs: `loaded` is what `_getMigrations`
produced and `currentVersion` what `getVersion` produced. -/
def _doMigration (moduleName : String) (toUpgrade : Bool) (version : VersionArg)
    (loaded : Option (List Migration)) (currentVersion : CurVer) : MigOut :=
  if moduleName = "" then ⟨[], [], .thrown .provideModule⟩
  else if invalidArg version then ⟨[], [], .thrown .provideValidVersion⟩
  else
    match loaded with
    | Option.none => ⟨[], [], .loadFailed⟩
    | Option.some migrations =>
      match resolveTarget toUpgrade version migrations.length currentVersion with
      | .earlyReturn => ⟨[], [], .returnedEarly⟩
      | .threw e => ⟨[], [], .thrown e⟩
      | .target ver =>
        match guardOutcome toUpgrade ver currentVersion migrations.length with
        | some o => ⟨[], [], o⟩
        | none => runFrom true toUpgrade migrations currentVersion ver

/-- Model of `migrate(moduleName, version)`. -/
def migrate (moduleName : String) (version : VersionArg)
    (loaded : Option (List Migration)) (currentVersion : CurVer) : MigOut :=
  _doMigration moduleName true version loaded currentVersion

/-- Model of `rollback(moduleName, version)`. -/
def rollback (moduleName : String) (version : VersionArg)
    (loaded : Option (List Migration)) (currentVersion : CurVer) : MigOut :=
  _doMigration moduleName false version loaded currentVersion

/-- Model of `getVersion`: read the version row of the module; `readOk =
false` models the catch branch that logs the error and returns nothing
(`undefined`). -/
def getVersion (record : Option Int) (readOk : Bool) : CurVer :=
  if readOk then
    match record with
    | Option.some v => .num v
    | Option.none => .null
  else .undefined

/-- One engine invocation in the sequence model of a single module: the
direction, the version argument, and whether the loader succeeds for this
call. -/
structure Call where
  name : String
  toUpgrade : Bool
  version : VersionArg
  loadOk : Bool

/-- Apply the version-table writes of one invocation to the module's record
(insert and update both leave the written value as the row's version).
A `NaN` write never happens when the read succeeded; it is mapped to keeping
the record so that the function stays total. -/
def applyWrites (record : Option Int) : List WriteOp → Option Int
  | [] => record
  | w :: rest =>
    applyWrites
      (match w.version with
       | .num v => Option.some v
       | .nan => record) rest

/-- One step of the sequence model: run `_doMigration` against the current
record with a successful version-store read, and apply its writes. -/
def stepCall (migrations : List Migration) (record : Option Int) (c : Call) :
    Option Int :=
  applyWrites record
    (_doMigration c.name c.toUpgrade c.version
      (if c.loadOk then Option.some migrations else Option.none)
      (getVersion record true)).writes

/-- Run a sequence of migrate / rollback invocations of one module whose
version-store reads and writes all succeed. -/
def runCalls (migrations : List Migration) (record : Option Int) :
    List Call → Option Int
  | [] => record
  | c :: cs => runCalls migrations (stepCall migrations record c) cs

/-- Three-unit module used in the concrete checks, all actions succeeding. -/
def units3 : List Migration := [⟨true, true⟩, ⟨true, true⟩, ⟨true, true⟩]

/-! Helper lemmas about the tagged migration list and the execution loop. -/

theorem tagFrom_length (n : Nat) (l : List Migration) :
    (tagFrom n l).length = l.length := by
  induction l generalizing n with
  | nil => rfl
  | cons m rest ih => simp [tagFrom, ih]

theorem tagFrom_append (n : Nat) (a b : List Migration) :
    tagFrom n (a ++ b) = tagFrom n a ++ tagFrom (n + a.length) b := by
  induction a generalizing n with
  | nil => simp [tagFrom]
  | cons m rest ih =>
    have h1 : n + 1 + rest.length = n + (rest.length + 1) := by omega
    simp [List.cons_append, tagFrom, ih, h1]

theorem tagFrom_take (n k : Nat) (l : List Migration) :
    (tagFrom n l).take k = tagFrom n (l.take k) := by
  induction l generalizing n k with
  | nil => simp [tagFrom]
  | cons m rest ih =>
    cases k with
    | zero => simp [tagFrom]
    | succ k => simp [tagFrom, ih]

theorem tagFrom_drop (n k : Nat) (l : List Migration) :
    (tagFrom n l).drop k = tagFrom (n + k) (l.drop k) := by
  induction l generalizing n k with
  | nil => simp [tagFrom]
  | cons m rest ih =>
    cases k with
    | zero => simp [tagFrom]
    | succ k =>
      simp only [tagFrom, List.drop_succ_cons, ih]
      congr 1
      omega

theorem tagFrom_getElem? (n i : Nat) (l : List Migration) :
    (tagFrom n l)[i]? = (l[i]?).map (fun u => (n + i, u)) := by
  induction l generalizing n i with
  | nil => simp [tagFrom]
  | cons m rest ih =>
    cases i with
    | zero => simp [tagFrom]
    | succ i =>
      simp only [tagFrom, List.getElem?_cons_succ, ih]
      have h1 : n + 1 + i = n + (i + 1) := by omega
      rw [h1]

theorem mem_tagFrom {p : Nat × Migration} {n : Nat} {l : List Migration}
    (h : p ∈ tagFrom n l) : ∃ j, p.1 = n + j ∧ l[j]? = some p.2 := by
  induction l generalizing n with
  | nil => simp [tagFrom] at h
  | cons m rest ih =>
    simp only [tagFrom, List.mem_cons] at h
    rcases h with h | h
    · exact ⟨0, by simp [h]⟩
    · obtain ⟨j, hj1, hj2⟩ := ih h
      exact ⟨j + 1, by omega, by simpa using hj2⟩

theorem tagFrom_map_true (n : Nat) (l : List Migration) :
    (tagFrom n l).map (fun p => (p.1, true)) =
      (List.range' n l.length).map (fun i => (i, true)) := by
  induction l generalizing n with
  | nil => simp [tagFrom]
  | cons m rest ih => simp [tagFrom, List.range'_succ, ih]

theorem migrateMany_all_ok {ms : List (Nat × Migration)} {up : Bool}
    (h : ∀ p ∈ ms, actionOk p.2 up = true) :
    _migrateMany ms up = (ms.map (fun p => (p.1, true)), true) := by
  induction ms with
  | nil => rfl
  | cons p rest ih =>
    obtain ⟨i, u⟩ := p
    have hu : actionOk u up = true := h (i, u) (by simp)
    have hrest := ih fun q hq => h q (by simp [hq])
    simp [_migrateMany, hu, hrest]

theorem migrateMany_first_fail {pre post : List (Nat × Migration)} {i : Nat}
    {bad : Migration} {up : Bool}
    (h : ∀ p ∈ pre, actionOk p.2 up = true) (hbad : actionOk bad up = false) :
    _migrateMany (pre ++ (i, bad) :: post) up =
      (pre.map (fun p => (p.1, true)) ++ [(i, false)], false) := by
  induction pre with
  | nil => simp [_migrateMany, hbad]
  | cons p rest ih =>
    obtain ⟨k, u⟩ := p
    have hu : actionOk u up = true := h (k, u) (by simp)
    have hrest := ih fun q hq => h q (by simp [hq])
    simp [_migrateMany, hu, hrest]

theorem migrateMany_snd_true {ms : List (Nat × Migration)} {up : Bool}
    (h : (_migrateMany ms up).2 = true) : ∀ e ∈ (_migrateMany ms up).1, e.2 = true := by
  induction ms with
  | nil => simp [_migrateMany]
  | cons p rest ih =>
    obtain ⟨i, u⟩ := p
    by_cases hu : actionOk u up = true
    · simp only [_migrateMany, hu, if_true] at h ⊢
      intro e he
      rcases List.mem_cons.mp he with rfl | he
      · rfl
      · exact ih h e he
    · simp [_migrateMany, hu] at h

theorem take_drop_singleton (l : List Migration) (k : Nat) (h : k < l.length) :
    (l.take (k + 1)).drop k = [l[k]] := by
  induction l generalizing k with
  | nil => simp at h
  | cons m rest ih =>
    cases k with
    | zero => simp
    | succ k => simpa using ih k (by simpa using h)

theorem sub_elem {l : List Migration} {s e j : Nat}
    (hj : j < e - s) : ((l.take e).drop s)[j]? = l[s + j]? := by
  rw [List.getElem?_drop, List.getElem?_take_of_lt (by omega)]

theorem sub_length {l : List Migration} {s e : Nat} (he : e ≤ l.length) :
    ((l.take e).drop s).length = e - s := by
  simp [List.length_take]
  omega

theorem mem_sub_of_getElem? {l : List Migration} {u : Migration} {s e j : Nat}
    (hs : s ≤ j) (hj : j < e) (h : l[j]? = some u) :
    u ∈ (l.take e).drop s := by
  have : ((l.take e).drop s)[j - s]? = some u := by
    rw [sub_elem (by omega)]
    have : s + (j - s) = j := by omega
    rw [this, h]
  obtain ⟨hlt, hget⟩ := List.getElem?_eq_some_iff.mp this
  exact hget ▸ List.getElem_mem hlt

theorem jsClamp_ofNat (len k : Nat) (h : k ≤ len) : jsClamp len (k : Int) = k := by
  unfold jsClamp
  rw [if_neg (by omega)]
  simp
  omega

theorem forward_slice (migs : List Migration) (c t : Nat) (hc : c ≤ migs.length)
    (ht : t ≤ migs.length) :
    jsSlice (tagFrom 0 migs) (sliceStartCur migs.length (.num (c : Int)))
        (sliceEndVer migs.length (.num (t : Int))) =
      tagFrom c ((migs.take t).drop c) := by
  simp only [sliceStartCur, sliceEndVer, jsClamp_ofNat _ _ hc, jsClamp_ofNat _ _ ht, jsSlice]
  rw [tagFrom_take, tagFrom_drop]
  simp

theorem backward_slice (migs : List Migration) (c t : Nat) (hc : c ≤ migs.length)
    (ht : t ≤ migs.length) :
    jsSlice (tagFrom 0 migs) (sliceStartVer migs.length (.num (t : Int)))
        (sliceEndCur migs.length (.num (c : Int))) =
      tagFrom t ((migs.take c).drop t) := by
  simp only [sliceStartVer, sliceEndCur, jsClamp_ofNat _ _ hc, jsClamp_ofNat _ _ ht, jsSlice]
  rw [tagFrom_take, tagFrom_drop]
  simp

theorem guard_none_forward (c t latest : Nat) (hct : c < t) (ht : t ≤ latest) :
    guardOutcome true (.num (t : Int)) (.num (c : Int)) latest = none := by
  have h1 : jsLt (JSVer.num (t : Int)) (CurVer.num (c : Int)) = false := by
    simp only [jsLt, decide_eq_false_iff_not]
    omega
  have h3 : jsGtLen (JSVer.num (t : Int)) latest = false := by
    simp only [jsGtLen, decide_eq_false_iff_not]
    omega
  have h4 : curEq (CurVer.num (c : Int)) latest = false := by
    simp only [curEq, decide_eq_false_iff_not]
    omega
  have h5 : verEqCur (JSVer.num (t : Int)) (CurVer.num (c : Int)) = false := by
    simp only [verEqCur, decide_eq_false_iff_not]
    omega
  simp [guardOutcome, h1, h3, h4, h5]

theorem guard_none_backward (c t latest : Nat) (htc : t < c) (hc : c ≤ latest) :
    guardOutcome false (.num (t : Int)) (.num (c : Int)) latest = none := by
  have h2 : jsGt (JSVer.num (t : Int)) (CurVer.num (c : Int)) = false := by
    simp only [jsGt, decide_eq_false_iff_not]
    omega
  have h3 : jsGtLen (JSVer.num (t : Int)) latest = false := by
    simp only [jsGtLen, decide_eq_false_iff_not]
    omega
  have h4 : curEq (CurVer.num (c : Int)) 0 = false := by
    simp only [curEq, decide_eq_false_iff_not]
    omega
  have h5 : verEqCur (JSVer.num (t : Int)) (CurVer.num (c : Int)) = false := by
    simp only [verEqCur, decide_eq_false_iff_not]
    omega
  simp [guardOutcome, h2, h3, h4, h5]

theorem doMigration_explicit (name : String) (up : Bool) (migs : List Migration)
    (v : Int) (cur : CurVer) (hname : name ≠ "") (hv : 0 ≤ v)
    (hguard : guardOutcome up (.num v) cur migs.length = none) :
    _doMigration name up (.num v) (Option.some migs) cur =
      runFrom true up migs cur (.num v) := by
  unfold _doMigration
  rw [if_neg hname]
  have hinv : invalidArg (.num v) = false := by
    simp only [invalidArg, decide_eq_false_iff_not]
    omega
  rw [if_neg (by simp [hinv])]
  simp [resolveTarget, hguard]

theorem runFrom_forward_ok (migs : List Migration) (c t : Nat) (hct : c < t)
    (ht : t ≤ migs.length) (hok : ∀ u ∈ (migs.take t).drop c, u.upOk = true) :
    runFrom true true migs (.num (c : Int)) (.num (t : Int)) =
      ⟨(List.range' c (t - c)).map (fun i => (i, true)), [⟨.num (t : Int), false⟩],
        .migrated (.num (t : Int))⟩ := by
  have hins : decide (CurVer.num (c : Int) = CurVer.null) = false := by
    simp
  by_cases hd : t = c + 1
  · subst hd
    have hclen : c < migs.length := by omega
    have hss : singleStep (JSVer.num ((c + 1 : Nat) : Int)) (CurVer.num (c : Int)) = true := by
      simp only [singleStep, curOrZero, decide_eq_true_eq]
      omega
    have hup : (migs[c]).upOk = true :=
      hok migs[c] (mem_sub_of_getElem? (Nat.le_refl c) (by omega)
        (List.getElem?_eq_getElem hclen))
    have hidx : (((c + 1 : Nat) : Int) - 1).toNat = c := by omega
    unfold runFrom
    rw [hss]
    simp only [Bool.and_self, if_true]
    rw [if_pos (by omega : (0 : Int) ≤ ((c + 1 : Nat) : Int) - 1)]
    rw [hidx, tagFrom_getElem?, List.getElem?_eq_getElem hclen]
    simp [finishSingle, _runMigration, actionOk, hup, _updateMigrationVersion, hins,
      List.range'_one]
  · have hss : singleStep (JSVer.num ((t : Nat) : Int)) (CurVer.num (c : Int)) = false := by
      simp only [singleStep, curOrZero, decide_eq_false_iff_not]
      omega
    have htag : ∀ p ∈ tagFrom c ((migs.take t).drop c), actionOk p.2 true = true := by
      intro p hp
      obtain ⟨j, hj1, hj2⟩ := mem_tagFrom hp
      obtain ⟨hlt, hget⟩ := List.getElem?_eq_some_iff.mp hj2
      simpa [actionOk] using hok p.2 (hget ▸ List.getElem_mem hlt)
    unfold runFrom
    rw [hss]
    simp only [Bool.and_false, Bool.false_eq_true, if_false, if_true]
    rw [forward_slice migs c t (by omega) ht, migrateMany_all_ok htag]
    simp only [finishMany, tagFrom_map_true, sub_length ht, _updateMigrationVersion, hins,
      Bool.false_eq_true, if_false]

theorem runFrom_backward_ok (migs : List Migration) (c t : Nat) (htc : t < c)
    (hc : c ≤ migs.length) (hok : ∀ u ∈ (migs.take c).drop t, u.downOk = true) :
    runFrom true false migs (.num (c : Int)) (.num (t : Int)) =
      ⟨((List.range' t (c - t)).map (fun i => (i, true))).reverse,
        [⟨.num (t : Int), false⟩], .migrated (.num (t : Int))⟩ := by
  have hins : decide (CurVer.num (c : Int) = CurVer.null) = false := by
    simp
  by_cases hd : c = t + 1
  · subst hd
    have htlen : t < migs.length := by omega
    have hss : singleStep (JSVer.num ((t : Nat) : Int)) (CurVer.num ((t + 1 : Nat) : Int)) = true := by
      simp only [singleStep, curOrZero, decide_eq_true_eq]
      omega
    have hdn : (migs[t]).downOk = true :=
      hok migs[t] (mem_sub_of_getElem? (Nat.le_refl t) (by omega)
        (List.getElem?_eq_getElem htlen))
    unfold runFrom
    rw [hss]
    simp only [Bool.and_self, if_true, Bool.false_eq_true, if_false]
    rw [if_pos (by omega : (0 : Int) ≤ ((t : Nat) : Int))]
    rw [Int.toNat_ofNat, tagFrom_getElem?, List.getElem?_eq_getElem htlen]
    simp [finishSingle, _runMigration, actionOk, hdn, _updateMigrationVersion, hins,
      List.range'_one]
  · have hss : singleStep (JSVer.num ((t : Nat) : Int)) (CurVer.num ((c : Nat) : Int)) = false := by
      simp only [singleStep, curOrZero, decide_eq_false_iff_not]
      omega
    have htag : ∀ p ∈ (tagFrom t ((migs.take c).drop t)).reverse, actionOk p.2 false = true := by
      intro p hp
      obtain ⟨j, hj1, hj2⟩ := mem_tagFrom (List.mem_reverse.mp hp)
      obtain ⟨hlt, hget⟩ := List.getElem?_eq_some_iff.mp hj2
      simpa [actionOk] using hok p.2 (hget ▸ List.getElem_mem hlt)
    unfold runFrom
    rw [hss]
    simp only [Bool.and_false, Bool.false_eq_true, if_false]
    rw [backward_slice migs c t hc (by omega), migrateMany_all_ok htag]
    simp only [finishMany, List.map_reverse, tagFrom_map_true, sub_length hc,
      _updateMigrationVersion, hins, Bool.false_eq_true, if_false]

/-- C1: for a module with stored current version `c` and a target `t` admitted
by the guard rails (load succeeded, valid non-empty module name, `c < t ≤
length` forward resp. `t < c ≤ length` backward), `migrate` runs exactly the
units `c+1 .. t` — 0-based array indices `c .. t-1` — each unit's forward
action, in ascending order, and then persists stored version `t` with a single
update; `rollback` to target `t` runs exactly the units `c .. t+1` — indices
`c-1 .. t` — each unit's backward action, in descending order, and then
persists stored version `t`.  The last two conjuncts close the gap to the
other request forms: a `latest` migrate behaves as an explicit migrate to the
sequence length, and an omitted version behaves as an explicit target
`current + 1` (migrate) resp. `current - 1` (rollback), so the range result
covers all three ways a target arises. -/
theorem doMigration_runs_exact_range :
    (∀ (name : String) (migs : List Migration) (c t : Nat),
      name ≠ "" → c < t → t ≤ migs.length →
      (∀ u ∈ (migs.take t).drop c, u.upOk = true) →
      migrate name (.num (t : Int)) (Option.some migs) (.num (c : Int)) =
        ⟨(List.range' c (t - c)).map (fun i => (i, true)),
         [⟨.num (t : Int), false⟩], .migrated (.num (t : Int))⟩) ∧
    (∀ (name : String) (migs : List Migration) (c t : Nat),
      name ≠ "" → t < c → c ≤ migs.length →
      (∀ u ∈ (migs.take c).drop t, u.downOk = true) →
      rollback name (.num (t : Int)) (Option.some migs) (.num (c : Int)) =
        ⟨((List.range' t (c - t)).map (fun i => (i, true))).reverse,
         [⟨.num (t : Int), false⟩], .migrated (.num (t : Int))⟩) ∧
    (∀ (name : String) (migs : List Migration) (cur : CurVer),
      migrate name .latest (Option.some migs) cur =
        migrate name (.num (migs.length : Int)) (Option.some migs) cur) ∧
    (∀ (name : String) (migs : List Migration) (c : Int), 0 ≤ c →
      migrate name .noArg (Option.some migs) (.num c) =
        migrate name (.num (c + 1)) (Option.some migs) (.num c)) ∧
    (∀ (name : String) (migs : List Migration) (c : Int), 1 ≤ c →
      rollback name .noArg (Option.some migs) (.num c) =
        rollback name (.num (c - 1)) (Option.some migs) (.num c)) := by
  refine ⟨?_, ?_, ?_, ?_, ?_⟩
  · intro name migs c t hname hct ht hok
    unfold migrate
    rw [doMigration_explicit name true migs (t : Int) _ hname (by omega)
      (guard_none_forward c t migs.length hct ht)]
    exact runFrom_forward_ok migs c t hct ht hok
  · intro name migs c t hname htc hc hok
    unfold rollback
    rw [doMigration_explicit name false migs (t : Int) _ hname (by omega)
      (guard_none_backward c t migs.length htc hc)]
    exact runFrom_backward_ok migs c t htc hc hok
  · intro name migs cur
    unfold migrate _doMigration
    by_cases hname : name = ""
    · simp [hname]
    · rw [if_neg hname, if_neg hname]
      have h2 : invalidArg (.num (migs.length : Int)) = false := by
        simp only [invalidArg, decide_eq_false_iff_not]
        omega
      rw [if_neg (by simp [invalidArg]), if_neg (by simp [h2])]
      simp [resolveTarget]
  · intro name migs c hc
    unfold migrate _doMigration
    by_cases hname : name = ""
    · simp [hname]
    · rw [if_neg hname, if_neg hname]
      have h2 : invalidArg (.num (c + 1)) = false := by
        simp only [invalidArg, decide_eq_false_iff_not]
        omega
      rw [if_neg (by simp [invalidArg]), if_neg (by simp [h2])]
      simp [resolveTarget]
  · intro name migs c hc
    unfold rollback _doMigration
    by_cases hname : name = ""
    · simp [hname]
    · rw [if_neg hname, if_neg hname]
      have h2 : invalidArg (.num (c - 1)) = false := by
        simp only [invalidArg, decide_eq_false_iff_not]
        omega
      rw [if_neg (by simp [invalidArg]), if_neg (by simp [h2])]
      have hsub : c + -1 = c - 1 := by ring
      simp [resolveTarget, hsub]

/-- Witness for C1: module `billing` with three units, migrating from stored
version 1 to 3 runs units 2 and 3 forward and writes 3; rolling back from
stored version 3 to 1 runs units 3 and 2 backward and writes 1. -/
theorem doMigration_runs_exact_range_witness :
    (migrate "billing" (.num ((3 : Nat) : Int)) (Option.some units3) (.num ((1 : Nat) : Int)) =
      ⟨(List.range' 1 (3 - 1)).map (fun i => (i, true)), [⟨.num ((3 : Nat) : Int), false⟩],
        .migrated (.num ((3 : Nat) : Int))⟩) ∧
    (rollback "billing" (.num ((1 : Nat) : Int)) (Option.some units3) (.num ((3 : Nat) : Int)) =
      ⟨((List.range' 1 (3 - 1)).map (fun i => (i, true))).reverse, [⟨.num ((1 : Nat) : Int), false⟩],
        .migrated (.num ((1 : Nat) : Int))⟩) :=
  ⟨doMigration_runs_exact_range.1 "billing" units3 1 3 (by decide) (by decide)
      (by decide) (by decide),
   doMigration_runs_exact_range.2.1 "billing" units3 3 1 (by decide) (by decide)
      (by decide) (by decide)⟩

theorem runFrom_forward_fail (migs : List Migration) (c t j : Nat) (bad : Migration)
    (hct : c < t) (ht : t ≤ migs.length) (hcj : c ≤ j) (hjt : j < t)
    (hbad : migs[j]? = some bad) (hfail : bad.upOk = false)
    (hok : ∀ u ∈ (migs.take j).drop c, u.upOk = true) :
    runFrom true true migs (.num (c : Int)) (.num (t : Int)) =
      ⟨(List.range' c (j - c)).map (fun i => (i, true)) ++ [(j, false)], [], .stepFailed⟩ := by
  by_cases hd : t = c + 1
  · subst hd
    have hjc : c = j := by omega
    subst hjc
    have hclen : c < migs.length := by omega
    have hss : singleStep (JSVer.num ((c + 1 : Nat) : Int)) (CurVer.num (c : Int)) = true := by
      simp only [singleStep, curOrZero, decide_eq_true_eq]
      omega
    have hidx : (((c + 1 : Nat) : Int) - 1).toNat = c := by omega
    unfold runFrom
    rw [hss]
    simp only [Bool.and_self, if_true]
    rw [if_pos (by omega : (0 : Int) ≤ ((c + 1 : Nat) : Int) - 1)]
    rw [hidx, tagFrom_getElem?, hbad]
    simp [finishSingle, _runMigration, actionOk, hfail, List.range'_one]
  · have hss : singleStep (JSVer.num ((t : Nat) : Int)) (CurVer.num (c : Int)) = false := by
      simp only [singleStep, curOrZero, decide_eq_false_iff_not]
      omega
    have hjY : j < (migs.take t).length := by
      simp only [List.length_take]
      omega
    have hYj : (migs.take t)[j] = bad := by
      have h1 : (migs.take t)[j]? = some bad := by
        rw [List.getElem?_take_of_lt hjt, hbad]
      obtain ⟨h2, h3⟩ := List.getElem?_eq_some_iff.mp h1
      exact h3
    have hA : ((migs.take t).drop c).take (j - c) = (migs.take j).drop c := by
      rw [List.take_drop]
      have hm : min (c + (j - c)) t = j := by omega
      rw [List.take_take, hm]
    have hB : ((migs.take t).drop c).drop (j - c) = bad :: ((migs.take t).drop (j + 1)) := by
      rw [List.drop_drop]
      have hcj' : c + (j - c) = j := by omega
      rw [hcj', List.drop_eq_getElem_cons hjY, hYj]
    have hsub : (migs.take t).drop c =
        ((migs.take j).drop c) ++ bad :: ((migs.take t).drop (j + 1)) := by
      conv_lhs => rw [← List.take_append_drop (j - c) ((migs.take t).drop c)]
      rw [hA, hB]
    have hlenA : ((migs.take j).drop c).length = j - c := sub_length (by omega)
    have htagdec : tagFrom c ((migs.take t).drop c) =
        tagFrom c ((migs.take j).drop c) ++
          (j, bad) :: tagFrom (j + 1) ((migs.take t).drop (j + 1)) := by
      rw [hsub, tagFrom_append, hlenA]
      have hcj' : c + (j - c) = j := by omega
      rw [hcj']
      rfl
    have hpre : ∀ p ∈ tagFrom c ((migs.take j).drop c), actionOk p.2 true = true := by
      intro p hp
      obtain ⟨k, hk1, hk2⟩ := mem_tagFrom hp
      obtain ⟨hlt, hget⟩ := List.getElem?_eq_some_iff.mp hk2
      simpa [actionOk] using hok p.2 (hget ▸ List.getElem_mem hlt)
    unfold runFrom
    rw [hss]
    simp only [Bool.and_false, Bool.false_eq_true, if_false, if_true]
    rw [forward_slice migs c t (by omega) ht, htagdec,
      migrateMany_first_fail hpre (by simp [actionOk, hfail])]
    simp only [finishMany, tagFrom_map_true, hlenA]

theorem runFrom_backward_fail (migs : List Migration) (c t j : Nat) (bad : Migration)
    (htc : t < c) (hc : c ≤ migs.length) (htj : t ≤ j) (hjc : j < c)
    (hbad : migs[j]? = some bad) (hfail : bad.downOk = false)
    (hok : ∀ u ∈ (migs.take c).drop (j + 1), u.downOk = true) :
    runFrom true false migs (.num (c : Int)) (.num (t : Int)) =
      ⟨((List.range' (j + 1) (c - (j + 1))).map (fun i => (i, true))).reverse ++ [(j, false)],
        [], .stepFailed⟩ := by
  by_cases hd : c = t + 1
  · subst hd
    have hjt' : j = t := by omega
    subst hjt'
    have htlen : j < migs.length := by omega
    have hss : singleStep (JSVer.num ((j : Nat) : Int)) (CurVer.num ((j + 1 : Nat) : Int)) = true := by
      simp only [singleStep, curOrZero, decide_eq_true_eq]
      omega
    unfold runFrom
    rw [hss]
    simp only [Bool.and_self, if_true, Bool.false_eq_true, if_false]
    rw [if_pos (by omega : (0 : Int) ≤ ((j : Nat) : Int))]
    rw [Int.toNat_ofNat, tagFrom_getElem?, hbad]
    simp [finishSingle, _runMigration, actionOk, hfail]
  · have hss : singleStep (JSVer.num ((t : Nat) : Int)) (CurVer.num ((c : Nat) : Int)) = false := by
      simp only [singleStep, curOrZero, decide_eq_false_iff_not]
      omega
    have hjY : j < (migs.take c).length := by
      simp only [List.length_take]
      omega
    have hYj : (migs.take c)[j] = bad := by
      have h1 : (migs.take c)[j]? = some bad := by
        rw [List.getElem?_take_of_lt hjc, hbad]
      obtain ⟨h2, h3⟩ := List.getElem?_eq_some_iff.mp h1
      exact h3
    have hA : ((migs.take c).drop t).take (j - t) = (migs.take j).drop t := by
      rw [List.take_drop]
      have hm : min (t + (j - t)) c = j := by omega
      rw [List.take_take, hm]
    have hB : ((migs.take c).drop t).drop (j - t) = bad :: ((migs.take c).drop (j + 1)) := by
      rw [List.drop_drop]
      have htj' : t + (j - t) = j := by omega
      rw [htj', List.drop_eq_getElem_cons hjY, hYj]
    have hsub : (migs.take c).drop t =
        ((migs.take j).drop t) ++ bad :: ((migs.take c).drop (j + 1)) := by
      conv_lhs => rw [← List.take_append_drop (j - t) ((migs.take c).drop t)]
      rw [hA, hB]
    have hlenA : ((migs.take j).drop t).length = j - t := sub_length (by omega)
    have htagdec : tagFrom t ((migs.take c).drop t) =
        tagFrom t ((migs.take j).drop t) ++
          (j, bad) :: tagFrom (j + 1) ((migs.take c).drop (j + 1)) := by
      rw [hsub, tagFrom_append, hlenA]
      have htj' : t + (j - t) = j := by omega
      rw [htj']
      rfl
    have hrev : (tagFrom t ((migs.take c).drop t)).reverse =
        (tagFrom (j + 1) ((migs.take c).drop (j + 1))).reverse ++
          (j, bad) :: (tagFrom t ((migs.take j).drop t)).reverse := by
      rw [htagdec]
      simp
    have hpre : ∀ p ∈ (tagFrom (j + 1) ((migs.take c).drop (j + 1))).reverse,
        actionOk p.2 false = true := by
      intro p hp
      obtain ⟨k, hk1, hk2⟩ := mem_tagFrom (List.mem_reverse.mp hp)
      obtain ⟨hlt, hget⟩ := List.getElem?_eq_some_iff.mp hk2
      simpa [actionOk] using hok p.2 (hget ▸ List.getElem_mem hlt)
    have hlenB : ((migs.take c).drop (j + 1)).length = c - (j + 1) := sub_length hc
    unfold runFrom
    rw [hss]
    simp only [Bool.and_false, Bool.false_eq_true, if_false]
    rw [backward_slice migs c t hc (by omega), hrev,
      migrateMany_first_fail hpre (by simp [actionOk, hfail])]
    simp only [finishMany, List.map_reverse, tagFrom_map_true, hlenB]

/-- Three-unit module whose second unit's forward action fails. -/
def unitsUpFail : List Migration := [⟨true, true⟩, ⟨false, true⟩, ⟨true, true⟩]

/-- Three-unit module whose second unit's backward action fails. -/
def unitsDownFail : List Migration := [⟨true, true⟩, ⟨true, false⟩, ⟨true, true⟩]

/-- C4: whenever a selected unit's action fails during an admitted migrate or
rollback run (the failing unit at 0-based index `j`, every earlier unit of the
run succeeding), execution stops immediately: the trace is exactly the
successful prefix followed by the failing invocation, nothing in the version
store is written (the stored version keeps its pre-run value), the outcome is
the reported step failure, and no backward compensation of the already-applied
units appears in the trace. -/
theorem doMigration_stops_at_first_failure :
    (∀ (name : String) (migs : List Migration) (c t j : Nat) (bad : Migration),
      name ≠ "" → c < t → t ≤ migs.length → c ≤ j → j < t →
      migs[j]? = some bad → bad.upOk = false →
      (∀ u ∈ (migs.take j).drop c, u.upOk = true) →
      migrate name (.num (t : Int)) (Option.some migs) (.num (c : Int)) =
        ⟨(List.range' c (j - c)).map (fun i => (i, true)) ++ [(j, false)], [],
          .stepFailed⟩) ∧
    (∀ (name : String) (migs : List Migration) (c t j : Nat) (bad : Migration),
      name ≠ "" → t < c → c ≤ migs.length → t ≤ j → j < c →
      migs[j]? = some bad → bad.downOk = false →
      (∀ u ∈ (migs.take c).drop (j + 1), u.downOk = true) →
      rollback name (.num (t : Int)) (Option.some migs) (.num (c : Int)) =
        ⟨((List.range' (j + 1) (c - (j + 1))).map (fun i => (i, true))).reverse ++
          [(j, false)], [], .stepFailed⟩) := by
  constructor
  · intro name migs c t j bad hname hct ht hcj hjt hbad hfail hok
    unfold migrate
    rw [doMigration_explicit name true migs (t : Int) _ hname (by omega)
      (guard_none_forward c t migs.length hct ht)]
    exact runFrom_forward_fail migs c t j bad hct ht hcj hjt hbad hfail hok
  · intro name migs c t j bad hname htc hc htj hjc hbad hfail hok
    unfold rollback
    rw [doMigration_explicit name false migs (t : Int) _ hname (by omega)
      (guard_none_backward c t migs.length htc hc)]
    exact runFrom_backward_fail migs c t j bad htc hc htj hjc hbad hfail hok

/-- Witness for C4: migrating `billing` from 0 to 3 when unit 2's forward
action fails runs unit 1 then stops at unit 2 with no write; rolling back from
3 to 0 when unit 2's backward action fails runs unit 3 then stops at unit 2
with no write. -/
theorem doMigration_stops_at_first_failure_witness :
    (migrate "billing" (.num ((3 : Nat) : Int)) (Option.some unitsUpFail) (.num ((0 : Nat) : Int)) =
      ⟨(List.range' 0 (1 - 0)).map (fun i => (i, true)) ++ [(1, false)], [], .stepFailed⟩) ∧
    (rollback "billing" (.num ((0 : Nat) : Int)) (Option.some unitsDownFail) (.num ((3 : Nat) : Int)) =
      ⟨((List.range' (1 + 1) (3 - (1 + 1))).map (fun i => (i, true))).reverse ++ [(1, false)],
        [], .stepFailed⟩) :=
  ⟨doMigration_stops_at_first_failure.1 "billing" unitsUpFail 0 3 1 ⟨false, true⟩
      (by decide) (by decide) (by decide) (by decide) (by decide) (by decide) (by decide)
      (by decide),
   doMigration_stops_at_first_failure.2 "billing" unitsDownFail 3 0 1 ⟨true, false⟩
      (by decide) (by decide) (by decide) (by decide) (by decide) (by decide) (by decide)
      (by decide)⟩

/-- C2 (behaviour of the code at the claim's scenario): `migrate` of a module
with three discovered units and no stored version record, with no explicit
version, returns immediately — no unit action runs and nothing is written —
instead of running unit 1 and inserting version 1.  The source branch tests
`if(toUpgrade) return` although its own comment says the bare return is for
the rollback direction, so the comment, the specification and the scenario all
describe the opposite of what the code does. -/
theorem migrate_absent_record_returns_early :
    migrate "billing" .noArg (Option.some units3) .null =
      ⟨[], [], .returnedEarly⟩ := by decide

/-- C3 (behaviour of the code at the claim's scenario): `rollback` of a module
with three discovered units and no stored version record, with no explicit
version, is not a silent no-op: the inverted branch sets the target to 1 and
the direction guard then throws the MigrationError with the message that one
cannot rollback to a later version, i.e. the returned promise rejects. -/
theorem rollback_absent_record_throws :
    rollback "billing" .noArg (Option.some units3) .null =
      ⟨[], [], .thrown .rollbackToLater⟩ := by decide

/-- C8 (behaviour of the code when the version-store read fails): with
`getVersion` returning `undefined`, `migrate` with no explicit version
computes the target `undefined + 1 = NaN`, slices an empty range, runs no
unit, yet updates the version store with `NaN` and logs success; `rollback`
slices `(NaN, undefined)`, i.e. the whole array, runs every unit's backward
action and also writes `NaN` — instead of halting with a reported failure and
no write as the claim states. -/
theorem failed_read_not_halted :
    (migrate "billing" .noArg (Option.some units3) .undefined =
      ⟨[], [⟨.nan, false⟩], .migrated .nan⟩) ∧
    (rollback "billing" .noArg (Option.some units3) .undefined =
      ⟨[(2, true), (1, true), (0, true)], [⟨.nan, false⟩], .migrated .nan⟩) := by
  decide

/-- C6: for a module with stored current version `c`, `migrate` with an
explicit version `v < c` (and `0 ≤ v`, so that the argument validation
passes) throws the MigrationError directing the caller to rollback instead,
applies zero unit actions and writes nothing to the version store. -/
theorem migrate_to_previous_version_throws (name : String) (migs : List Migration)
    (v c : Int) (hname : name ≠ "") (hv : 0 ≤ v) (hvc : v < c) :
    migrate name (.num v) (Option.some migs) (.num c) =
      ⟨[], [], .thrown .migrateToPrevious⟩ := by
  unfold migrate _doMigration
  rw [if_neg hname]
  have hinv : invalidArg (.num v) = false := by
    simp only [invalidArg, decide_eq_false_iff_not]
    omega
  rw [if_neg (by simp [hinv])]
  have hlt : jsLt (JSVer.num v) (CurVer.num c) = true := by
    simp only [jsLt, decide_eq_true_eq]
    omega
  simp [resolveTarget, guardOutcome, hlt]

/-- Witness for C6: migrating `billing` to version 1 while the stored version
is 2 throws and has no effect. -/
theorem migrate_to_previous_version_throws_witness :
    migrate "billing" (.num 1) (Option.some units3) (.num 2) =
      ⟨[], [], .thrown .migrateToPrevious⟩ :=
  migrate_to_previous_version_throws "billing" units3 1 2 (by decide) (by decide)
    (by decide)

theorem jsClamp_nonneg (len : Nat) (v : Int) (h0 : 0 ≤ v) (hlen : v ≤ (len : Int)) :
    jsClamp len v = v.toNat := by
  unfold jsClamp
  rw [if_neg (by omega)]
  omega

theorem shortcut_single (up : Bool) (migs : List Migration) (cur : CurVer) (t : Int)
    (k : Nat) (hk : k < migs.length)
    (hss : singleStep (.num t) cur = true)
    (hidx : (if up then t - 1 else t) = (k : Int)) :
    runFrom true up migs cur (.num t) =
      finishSingle (_runMigration (some (k, migs[k])) up) (.num t)
        (decide (cur = CurVer.null)) := by
  unfold runFrom
  rw [hss]
  simp only [Bool.and_self, if_true]
  rw [hidx]
  rw [if_pos (by omega : (0 : Int) ≤ (k : Int))]
  rw [Int.toNat_ofNat, tagFrom_getElem?, List.getElem?_eq_getElem hk]
  simp only [Option.map_some', Nat.zero_add]

theorem slice_single (up : Bool) (migs : List Migration) (cur : CurVer) (t : Int)
    (k : Nat) (hk : k < migs.length)
    (hstart : (if up then sliceStartCur migs.length cur
      else sliceStartVer migs.length (.num t)) = k)
    (hend : (if up then sliceEndVer migs.length (.num t)
      else sliceEndCur migs.length cur) = k + 1) :
    runFrom false up migs cur (.num t) =
      finishMany (_migrateMany [(k, migs[k])] up) (.num t)
        (decide (cur = CurVer.null)) := by
  have hslice : jsSlice (tagFrom 0 migs) k (k + 1) = [(k, migs[k])] := by
    unfold jsSlice
    rw [tagFrom_take, tagFrom_drop, take_drop_singleton migs k hk]
    simp [tagFrom]
  unfold runFrom
  simp only [Bool.false_and, Bool.false_eq_true, if_false]
  cases up with
  | true =>
    rw [if_pos rfl] at hstart hend
    simp only [if_pos rfl]
    rw [hstart, hend, hslice]
    rw [if_pos trivial]
  | false =>
    rw [if_neg (by simp)] at hstart hend
    simp only [Bool.false_eq_true, if_false]
    rw [hstart, hend, hslice]
    rfl

/-- C5: for every admitted request whose distance between the current version
(an absent record treated as 0) and the resolved target is exactly one step —
forward target `current + 1`, backward target `current - 1`, including the
absent-record case and an explicit target 0 — with the stored version inside
the data-model invariant `[0, length]`, the source's single-unit shortcut
produces a result identical to the general slice-and-iterate path: the same
unit action runs and the same version and insert flag are persisted. -/
theorem single_step_shortcut_eq_slice_path (up : Bool) (migs : List Migration)
    (cur : CurVer) (t : Int)
    (hcur : cur = .null ∨ ∃ c : Int, cur = .num c ∧ 0 ≤ c ∧ c ≤ (migs.length : Int))
    (hdir : if up then t = curOrZero cur + 1 else t = curOrZero cur - 1)
    (ht0 : 0 ≤ t) (htlen : t ≤ (migs.length : Int)) :
    runFrom true up migs cur (.num t) = runFrom false up migs cur (.num t) := by
  rcases hcur with hnull | ⟨c, hcnum, hc0, hclen⟩
  · subst hnull
    cases up with
    | false =>
      rw [if_neg (by simp)] at hdir
      simp only [curOrZero] at hdir
      omega
    | true =>
      rw [if_pos rfl] at hdir
      simp only [curOrZero] at hdir
      have ht1 : t = 1 := by omega
      subst ht1
      have hk : 0 < migs.length := by omega
      rw [shortcut_single true migs .null 1 0 hk (by decide) (by norm_num),
        slice_single true migs .null 1 0 hk (by simp [sliceStartCur])
          (by simp [sliceEndVer, jsClamp_nonneg migs.length 1 (by omega) (by omega)])]
      cases hu : actionOk migs[0] true <;>
        simp [finishSingle, finishMany, _runMigration, _migrateMany, hu]
  · subst hcnum
    cases up with
    | true =>
      rw [if_pos rfl] at hdir
      simp only [curOrZero] at hdir
      have hk : c.toNat < migs.length := by omega
      have hss : singleStep (JSVer.num t) (CurVer.num c) = true := by
        simp only [singleStep, curOrZero, decide_eq_true_eq]
        omega
      rw [shortcut_single true migs (.num c) t c.toNat hk hss (by simp; omega),
        slice_single true migs (.num c) t c.toNat hk
          (by simp [sliceStartCur, jsClamp_nonneg migs.length c hc0 hclen])
          (by simp [sliceEndVer, jsClamp_nonneg migs.length t ht0 htlen]; omega)]
      cases hu : actionOk migs[c.toNat] true <;>
        simp [finishSingle, finishMany, _runMigration, _migrateMany, hu]
    | false =>
      rw [if_neg (by simp)] at hdir
      simp only [curOrZero] at hdir
      have hk : t.toNat < migs.length := by omega
      have hss : singleStep (JSVer.num t) (CurVer.num c) = true := by
        simp only [singleStep, curOrZero, decide_eq_true_eq]
        omega
      rw [shortcut_single false migs (.num c) t t.toNat hk hss (by simp; omega),
        slice_single false migs (.num c) t t.toNat hk
          (by simp [sliceStartVer, jsClamp_nonneg migs.length t ht0 htlen])
          (by simp [sliceEndCur, jsClamp_nonneg migs.length c hc0 hclen]; omega)]
      cases hu : actionOk migs[t.toNat] false <;>
        simp [finishSingle, finishMany, _runMigration, _migrateMany, hu]

/-- Witness for C5: the first forward step of the `billing` module from an
absent record (target 1) takes the same path either way. -/
theorem single_step_shortcut_eq_slice_path_witness :
    runFrom true true units3 .null (.num 1) = runFrom false true units3 .null (.num 1) :=
  single_step_shortcut_eq_slice_path true units3 .null 1 (Or.inl rfl) (by decide)
    (by decide) (by decide)

theorem finishSingle_no_throw (res : List (Nat × Bool) × StepRes) (ver : JSVer)
    (b : Bool) (e : MigErr) : (finishSingle res ver b).outcome ≠ .thrown e := by
  obtain ⟨tr, r⟩ := res
  cases r <;> simp [finishSingle]

theorem finishMany_no_throw (res : List (Nat × Bool) × Bool) (ver : JSVer)
    (b : Bool) (e : MigErr) : (finishMany res ver b).outcome ≠ .thrown e := by
  obtain ⟨tr, r⟩ := res
  cases r <;> simp [finishMany]

theorem runFrom_no_throw (sc up : Bool) (migs : List Migration) (cur : CurVer)
    (ver : JSVer) (e : MigErr) : (runFrom sc up migs cur ver).outcome ≠ .thrown e := by
  unfold runFrom
  repeat' split
  all_goals first
    | exact finishSingle_no_throw _ _ _ _
    | exact finishMany_no_throw _ _ _ _
    | simp

theorem doMigration_throw_shape (name : String) (up : Bool) (varg : VersionArg)
    (loaded : Option (List Migration)) (cur : CurVer) :
    (∃ e, _doMigration name up varg loaded cur = ⟨[], [], .thrown e⟩) ∨
    (∀ e, (_doMigration name up varg loaded cur).outcome ≠ .thrown e) := by
  unfold _doMigration
  split
  · exact Or.inl ⟨_, rfl⟩
  split
  · exact Or.inl ⟨_, rfl⟩
  split
  · exact Or.inr (by simp)
  split
  · exact Or.inr (by simp)
  · exact Or.inl ⟨_, rfl⟩
  split
  · rename_i o heq
    cases o
    case thrown e => exact Or.inl ⟨e, rfl⟩
    all_goals exact Or.inr (by simp)
  · exact Or.inr fun e => runFrom_no_throw true up _ cur _ e

/-- C9 counterexample: `migrate` called with a missing module name does raise
an error to the caller — the outcome is a thrown MigrationError (the returned
promise rejects), not a captured, reported outcome — refuting the claim that
migrate and rollback never raise for any input. -/
theorem migrate_missing_module_raises :
    (migrate "" .noArg (Option.some units3) .null).outcome =
      .thrown .provideModule := by decide

/-- C9 amended: failures arising in the execution phase (unit actions and
version persistence) are always captured and converted into a reported
outcome — the execution phase never throws — while validation failures
(missing module name, invalid version argument, direction conflicts,
rollback-to-latest) are raised to the caller as MigrationError rejections;
every raised error occurs before any side effect: whenever the outcome is a
thrown error, no unit action was invoked and nothing was written. -/
theorem thrown_only_before_execution :
    (∀ (name : String) (up : Bool) (varg : VersionArg)
      (loaded : Option (List Migration)) (cur : CurVer) (e : MigErr),
      (_doMigration name up varg loaded cur).outcome = .thrown e →
      (_doMigration name up varg loaded cur).trace = [] ∧
      (_doMigration name up varg loaded cur).writes = []) ∧
    (∀ (sc up : Bool) (migs : List Migration) (cur : CurVer) (ver : JSVer)
      (e : MigErr), (runFrom sc up migs cur ver).outcome ≠ .thrown e) := by
  constructor
  · intro name up varg loaded cur e h
    rcases doMigration_throw_shape name up varg loaded cur with ⟨e', he⟩ | hn
    · rw [he]
      exact ⟨rfl, rfl⟩
    · exact absurd h (hn e)
  · exact runFrom_no_throw

/-- Witness for the amended C9: the missing-module throw happens before any
unit action or version write. -/
theorem thrown_only_before_execution_witness :
    (_doMigration "" true .noArg (Option.some units3) .null).trace = [] ∧
    (_doMigration "" true .noArg (Option.some units3) .null).writes = [] :=
  thrown_only_before_execution.1 "" true .noArg (Option.some units3) .null
    .provideModule (by decide)

theorem runMigration_ok_trace {m : Option (Nat × Migration)} {up : Bool}
    {tr : List (Nat × Bool)} (h : _runMigration m up = (tr, .ok)) :
    ∀ e ∈ tr, e.2 = true := by
  cases m with
  | none => simp [_runMigration] at h
  | some p =>
    obtain ⟨i, u⟩ := p
    by_cases hu : actionOk u up = true
    · have htr : tr = [(i, true)] := by
        simpa [_runMigration, hu] using congrArg Prod.fst h.symm
      subst htr
      intro e he
      simp only [List.mem_singleton] at he
      simp [he]
    · simp [_runMigration, hu, Prod.ext_iff] at h

theorem updateMigrationVersion_facts (v : JSVer) (b : Bool) :
    (_updateMigrationVersion v b).length ≤ 1 ∧
      ∀ w ∈ _updateMigrationVersion v b, w.version = v := by
  cases b <;> simp [_updateMigrationVersion]

theorem finishSingle_once (m : Option (Nat × Migration)) (up : Bool) (ver : JSVer)
    (b : Bool) :
    (finishSingle (_runMigration m up) ver b).writes.length ≤ 1 ∧
    ∀ w ∈ (finishSingle (_runMigration m up) ver b).writes,
      (finishSingle (_runMigration m up) ver b).outcome = .migrated w.version ∧
      ∀ e ∈ (finishSingle (_runMigration m up) ver b).trace, e.2 = true := by
  rcases hr : _runMigration m up with ⟨tr, r⟩
  cases r with
  | ok =>
    constructor
    · simpa [finishSingle] using (updateMigrationVersion_facts ver b).1
    · intro w hw
      simp only [finishSingle] at hw ⊢
      rw [(updateMigrationVersion_facts ver b).2 w hw]
      exact ⟨rfl, runMigration_ok_trace hr⟩
  | failed => exact ⟨by simp [finishSingle], by simp [finishSingle]⟩
  | typeErr => exact ⟨by simp [finishSingle], by simp [finishSingle]⟩

theorem finishMany_once (ms : List (Nat × Migration)) (up : Bool) (ver : JSVer)
    (b : Bool) :
    (finishMany (_migrateMany ms up) ver b).writes.length ≤ 1 ∧
    ∀ w ∈ (finishMany (_migrateMany ms up) ver b).writes,
      (finishMany (_migrateMany ms up) ver b).outcome = .migrated w.version ∧
      ∀ e ∈ (finishMany (_migrateMany ms up) ver b).trace, e.2 = true := by
  rcases hr : _migrateMany ms up with ⟨tr, r⟩
  cases r with
  | false => exact ⟨by simp [finishMany], by simp [finishMany]⟩
  | true =>
    constructor
    · simpa [finishMany] using (updateMigrationVersion_facts ver b).1
    · intro w hw
      simp only [finishMany] at hw ⊢
      rw [(updateMigrationVersion_facts ver b).2 w hw]
      refine ⟨rfl, ?_⟩
      have h2 : (_migrateMany ms up).2 = true := by rw [hr]
      have h1 := migrateMany_snd_true h2
      rw [hr] at h1
      exact h1

theorem runFrom_once (sc up : Bool) (migs : List Migration) (cur : CurVer)
    (ver : JSVer) :
    (runFrom sc up migs cur ver).writes.length ≤ 1 ∧
    ∀ w ∈ (runFrom sc up migs cur ver).writes,
      (runFrom sc up migs cur ver).outcome = .migrated w.version ∧
      ∀ e ∈ (runFrom sc up migs cur ver).trace, e.2 = true := by
  unfold runFrom
  repeat' split
  all_goals first
    | exact finishSingle_once _ _ _ _
    | exact finishMany_once _ _ _ _
    | exact ⟨by simp, by simp⟩

/-- C10: during any single `_doMigration` invocation the version store is
written at most once; every write carries exactly the resolved target version
— the same version the success outcome reports, never an intermediate one —
and a write happens only when every unit action invoked in the run
succeeded. -/
theorem writes_at_most_once_after_success (name : String) (up : Bool)
    (varg : VersionArg) (loaded : Option (List Migration)) (cur : CurVer) :
    (_doMigration name up varg loaded cur).writes.length ≤ 1 ∧
    ∀ w ∈ (_doMigration name up varg loaded cur).writes,
      (_doMigration name up varg loaded cur).outcome = .migrated w.version ∧
      ∀ e ∈ (_doMigration name up varg loaded cur).trace, e.2 = true := by
  unfold _doMigration
  repeat' split
  all_goals first
    | exact runFrom_once _ _ _ _ _
    | exact ⟨by simp, by simp⟩

/-- Witness for C10: a successful explicit migrate of billing to version 1
from an absent record reports exactly the single written version. -/
theorem writes_at_most_once_after_success_witness :
    (_doMigration "billing" true (.num 1) (Option.some units3) .null).outcome =
      .migrated (.num 1) := by
  have h := (writes_at_most_once_after_success "billing" true (.num 1)
    (Option.some units3) .null).2 ⟨.num 1, true⟩ (by decide)
  exact h.1

theorem finishSingle_writes_version (res : List (Nat × Bool) × StepRes) (ver : JSVer)
    (b : Bool) : ∀ w ∈ (finishSingle res ver b).writes, w.version = ver := by
  obtain ⟨tr, r⟩ := res
  cases r with
  | ok =>
    intro w hw
    simp only [finishSingle] at hw
    exact (updateMigrationVersion_facts ver b).2 w hw
  | failed => simp [finishSingle]
  | typeErr => simp [finishSingle]

theorem finishMany_writes_version (res : List (Nat × Bool) × Bool) (ver : JSVer)
    (b : Bool) : ∀ w ∈ (finishMany res ver b).writes, w.version = ver := by
  obtain ⟨tr, r⟩ := res
  cases r with
  | true =>
    intro w hw
    simp only [finishMany] at hw
    exact (updateMigrationVersion_facts ver b).2 w hw
  | false => simp [finishMany]

theorem runFrom_writes_version (sc up : Bool) (migs : List Migration) (cur : CurVer)
    (ver : JSVer) : ∀ w ∈ (runFrom sc up migs cur ver).writes, w.version = ver := by
  unfold runFrom
  repeat' split
  all_goals first
    | exact finishSingle_writes_version _ _ _
    | exact finishMany_writes_version _ _ _
    | simp

theorem doMigration_none_writes (name : String) (up : Bool) (varg : VersionArg)
    (cur : CurVer) : (_doMigration name up varg Option.none cur).writes = [] := by
  unfold _doMigration
  repeat' split
  all_goals (try rfl)
  all_goals simp_all

theorem doMigration_writes_facts (name : String) (up : Bool) (varg : VersionArg)
    (migs : List Migration) (cur : CurVer) (w : WriteOp)
    (hw : w ∈ (_doMigration name up varg (Option.some migs) cur).writes) :
    ∃ ver, resolveTarget up varg migs.length cur = .target ver ∧
      guardOutcome up ver cur migs.length = none ∧
      invalidArg varg = false ∧ w.version = ver := by
  by_cases hname : name = ""
  · simp [_doMigration, hname] at hw
  by_cases hinv : invalidArg varg = true
  · simp [_doMigration, hname, hinv] at hw
  cases hres : resolveTarget up varg migs.length cur with
  | earlyReturn => simp [_doMigration, hname, hinv, hres] at hw
  | threw e => simp [_doMigration, hname, hinv, hres] at hw
  | target ver =>
    cases hg : guardOutcome up ver cur migs.length with
    | some o => simp [_doMigration, hname, hinv, hres, hg] at hw
    | none =>
      refine ⟨ver, rfl, hg, by simpa using hinv, ?_⟩
      have hw' : w ∈ (runFrom true up migs cur ver).writes := by
        simpa [_doMigration, hname, hinv, hres, hg] using hw
      exact runFrom_writes_version true up migs cur ver w hw'

theorem guard_none_parts {up : Bool} {ver : JSVer} {cur : CurVer} {latest : Nat}
    (h : guardOutcome up ver cur latest = none) :
    (up && jsLt ver cur) = false ∧ (!up && jsGt ver cur) = false ∧
    (jsGtLen ver latest || (up && curEq cur (latest : Int))) = false ∧
    (!up && curEq cur 0) = false ∧ verEqCur ver cur = false := by
  unfold guardOutcome at h
  split_ifs at h with h1 h2 h3 h4 h5
  exact ⟨by simpa using h1, by simpa using h2, by simpa using h3,
    by simpa using h4, by simpa using h5⟩

theorem target_bounds {up : Bool} {varg : VersionArg} {latest : Nat} {cur : CurVer}
    {ver : JSVer} (hres : resolveTarget up varg latest cur = .target ver)
    (hg : guardOutcome up ver cur latest = none) (hinv : invalidArg varg = false)
    (hcur : cur = .null ∨ ∃ c : Int, cur = .num c ∧ 0 ≤ c) :
    ∃ tv : Int, ver = .num tv ∧ 0 ≤ tv ∧ tv ≤ (latest : Int) := by
  obtain ⟨g1, g2, g3, g4, g5⟩ := guard_none_parts hg
  have hlen : ∀ x : Int, ver = .num x → x ≤ (latest : Int) := by
    intro x hx
    subst hx
    have : jsGtLen (JSVer.num x) latest = false := by
      rcases Bool.or_eq_false_iff.mp g3 with ⟨h3a, _⟩
      exact h3a
    simp only [jsGtLen, decide_eq_false_iff_not] at this
    omega
  cases varg with
  | num v =>
    have hv : JSVer.num v = ver := by simpa [resolveTarget] using hres
    have h0 : (0 : Int) ≤ v := by
      simp only [invalidArg, decide_eq_false_iff_not] at hinv
      omega
    exact ⟨v, hv.symm, h0, hlen v hv.symm⟩
  | latest =>
    cases up with
    | true =>
      have hv : JSVer.num (latest : Int) = ver := by simpa [resolveTarget] using hres
      exact ⟨latest, hv.symm, by omega, hlen _ hv.symm⟩
    | false => simp [resolveTarget] at hres
  | noArg =>
    rcases hcur with hnull | ⟨c, hcnum, hc0⟩
    · subst hnull
      cases up with
      | true => simp [resolveTarget] at hres
      | false =>
        have hv : JSVer.num 1 = ver := by simpa [resolveTarget] using hres
        rw [← hv] at g2
        simp [jsGt] at g2
    · subst hcnum
      cases up with
      | true =>
        have hv : JSVer.num (c + 1) = ver := by simpa [resolveTarget] using hres
        exact ⟨c + 1, hv.symm, by omega, hlen _ hv.symm⟩
      | false =>
        have hv : JSVer.num (c + -1) = ver := by simpa [resolveTarget] using hres
        have hc1 : c ≠ 0 := by
          intro hc
          subst hc
          simp [curEq] at g4
        exact ⟨c + -1, hv.symm, by omega, hlen _ hv.symm⟩

theorem applyWrites_mem {P : Int → Prop} :
    ∀ (ws : List WriteOp) (record : Option Int),
      (∀ v, record = Option.some v → P v) →
      (∀ w ∈ ws, ∃ t, w.version = JSVer.num t ∧ P t) →
      ∀ v, applyWrites record ws = Option.some v → P v := by
  intro ws
  induction ws with
  | nil =>
    intro record hrec _ v hv
    exact hrec v hv
  | cons w rest ih =>
    intro record hrec hws v hv
    obtain ⟨t, hwt, hPt⟩ := hws w (by simp)
    simp only [applyWrites, hwt] at hv
    refine ih (Option.some t) ?_ (fun w' h => hws w' (List.mem_cons_of_mem _ h)) v hv
    intro v' hv'
    injection hv' with h'
    exact h' ▸ hPt

theorem stepCall_preserves (migs : List Migration) (record : Option Int) (c : Call)
    (h : ∀ v, record = Option.some v → 0 ≤ v ∧ v ≤ (migs.length : Int)) :
    ∀ v, stepCall migs record c = Option.some v → 0 ≤ v ∧ v ≤ (migs.length : Int) := by
  intro v hv
  unfold stepCall at hv
  by_cases hl : c.loadOk
  · rw [if_pos hl] at hv
    refine applyWrites_mem _ record h ?_ v hv
    intro w hw
    obtain ⟨ver, hres, hg, hinv, hwv⟩ :=
      doMigration_writes_facts c.name c.toUpgrade c.version migs
        (getVersion record true) w hw
    have hcur : getVersion record true = .null ∨
        ∃ cc : Int, getVersion record true = .num cc ∧ 0 ≤ cc := by
      cases record with
      | none => exact Or.inl (by simp [getVersion])
      | some r => exact Or.inr ⟨r, by simp [getVersion], (h r rfl).1⟩
    obtain ⟨tv, htv, h0, hvlen⟩ := target_bounds hres hg hinv hcur
    exact ⟨tv, by rw [hwv, htv], h0, hvlen⟩
  · rw [if_neg hl, doMigration_none_writes] at hv
    exact h v hv

theorem runCalls_preserves (migs : List Migration) :
    ∀ (calls : List Call) (record : Option Int),
      (∀ v, record = Option.some v → 0 ≤ v ∧ v ≤ (migs.length : Int)) →
      ∀ v, runCalls migs record calls = Option.some v →
        0 ≤ v ∧ v ≤ (migs.length : Int) := by
  intro calls
  induction calls with
  | nil =>
    intro record h v hv
    exact h v hv
  | cons c cs ih =>
    intro record h v hv
    simp only [runCalls] at hv
    exact ih _ (stepCall_preserves migs record c h) v hv

/-- C7: after any sequence of migrate / rollback invocations of a module whose
version-store reads and writes all succeed (the loader may succeed or fail per
call but always yields the same discovered unit list when it succeeds), a
stored version record always lies in the closed interval `[0, length]` of the
module's migration sequence. -/
theorem stored_version_in_range (migs : List Migration) (calls : List Call)
    (v : Int) (h : runCalls migs Option.none calls = Option.some v) :
    0 ≤ v ∧ v ≤ (migs.length : Int) :=
  runCalls_preserves migs calls Option.none (by simp) v h

/-- Witness for C7: one explicit migrate of billing to version 1 from an empty
store leaves stored version 1, inside `[0, 3]`. -/
theorem stored_version_in_range_witness :
    (0 : Int) ≤ 1 ∧ (1 : Int) ≤ ((units3.length : Nat) : Int) :=
  stored_version_in_range units3 [⟨"m", true, .num 1, true⟩] 1 (by decide)

end Knexer
